import Mathlib

/-!
Verification development for the estafette-gcloud-quota-exporter repository.

The exporter periodically fetches Google Cloud compute quota data for a list
of projects and regions and publishes each quota's limit and usage as
Prometheus gauges.  This file gives a shallow embedding of the relevant
program parts:

* the metric-name canonicalizer `casee.ToSnakeCase` (dependency
  `pinzolo/casee`, which in turn uses `fatih/camelcase.Split`), modelled on
  the ASCII plane where Go's `unicode` character classes coincide with the
  ASCII ranges used below;
* the static-gauge publisher of `src/main.go`
  (`updateGlobalQuota` / `updateRegionalQuota`, overwrite via `Set`);
* the dynamic-registry publisher of `src/unnamed/part_003`
  (`updatePrometheusTimelinesFromQuota`, accumulate via `Add`);
* the fetch loop `fetchQuota` with its fatal-on-error behaviour, as a trace
  of API calls and publish operations;
* the jitter helper `applyJitter`;
* the shutdown interplay of the quota goroutine and `main`, as a small
  transition system.

Gauge values are modelled as integers; Go stores them in `float64`, and all
values appearing in the claims (and all GCP quota values) are small integers,
on which `float64` assignment and addition are exact.
-/

namespace Exporter

/-! ## Character model (ASCII plane)

Go's `unicode.IsLower`, `IsUpper`, `IsDigit`, `IsSpace` and
`strings.ToLower` restricted to the ASCII code points, written via `toNat`
code points ('A' = 65, 'Z' = 90, 'a' = 97, 'z' = 122, '0' = 48, '9' = 57).
GCP quota metric names are ASCII. -/

/-- ASCII restriction of Go `unicode.IsSpace` (space, TAB, LF, VT, FF, CR). -/
def goIsSpace (c : Char) : Bool :=
  c.toNat == 32 || c.toNat == 9 || c.toNat == 10 ||
  c.toNat == 11 || c.toNat == 12 || c.toNat == 13

/-- ASCII restriction of Go `unicode.IsUpper`. -/
def goIsUpper (c : Char) : Bool := 65 ≤ c.toNat && c.toNat ≤ 90

/-- ASCII restriction of Go `unicode.IsLower`. -/
def goIsLower (c : Char) : Bool := 97 ≤ c.toNat && c.toNat ≤ 122

/-- ASCII restriction of Go `unicode.IsDigit`. -/
def goIsDigit (c : Char) : Bool := 48 ≤ c.toNat && c.toNat ≤ 57

/-- ASCII restriction of Go `strings.ToLower` applied to one rune. -/
def goToLower (c : Char) : Char :=
  if goIsUpper c then Char.ofNat (c.toNat + 32) else c

/-- Character class used by `fatih/camelcase.Split`: 1 = lower, 2 = upper,
3 = digit, 4 = other, tested in this order. -/
def charClass (c : Char) : Nat :=
  if goIsLower c then 1 else if goIsUpper c then 2 else if goIsDigit c then 3 else 4

/-! ## Splitting helpers

`splitWhen p` is Go `strings.Split` generalized to a character predicate:
it cuts the list at every character satisfying `p`, keeping empty pieces
(like `strings.Split`); `strings.Fields` is recovered by filtering out the
empty pieces. -/

/-- Auxiliary splitter returning the piece before the first separator and
the remaining pieces. -/
def splitWhenAux (p : Char → Bool) : List Char → List Char × List (List Char)
  | [] => ([], [])
  | c :: cs =>
    let t := splitWhenAux p cs
    if p c then ([], t.1 :: t.2) else (c :: t.1, t.2)

/-- Split a character list at every separator character (Go `strings.Split`
for a one-character separator when `p` tests that character;
Go `strings.Fields` after filtering out empty pieces when `p = goIsSpace`). -/
def splitWhen (p : Char → Bool) (l : List Char) : List (List Char) :=
  (splitWhenAux p l).1 :: (splitWhenAux p l).2

/-! ## The camelcase.Split model (`fatih/camelcase`, vendored by casee) -/

/-- Test whether a run starts with an upper-case character
(`unicode.IsUpper(runes[i][0])` in camelcase.Split; Go only evaluates this
on non-empty runs, where the `none` branch is unreachable). -/
def headIsUpper (r : List Char) : Bool :=
  match r.head? with
  | some c => goIsUpper c
  | none => false

/-- Test whether a run starts with a lower-case character. -/
def headIsLower (r : List Char) : Bool :=
  match r.head? with
  | some c => goIsLower c
  | none => false

/-- First loop of camelcase.Split: group adjacent characters of equal
`charClass` into maximal runs.  (Go builds the runs appending left to
right; recursing from the right yields the same maximal-run
decomposition.) -/
def classRuns : List Char → List (List Char)
  | [] => []
  | c :: cs =>
    match classRuns cs with
    | [] => [[c]]
    | [] :: rs => [c] :: [] :: rs
    | (d :: ds) :: rs =>
      if charClass c = charClass d then (c :: d :: ds) :: rs else [c] :: (d :: ds) :: rs

/-- Second loop of camelcase.Split: when an upper-case run is followed by a
lower-case run, move the last character of the upper run to the front of
the lower run (so "PDFLoader" splits as "PDF", "Loader").  Go iterates with
an index, comparing each run (as modified so far) with its successor;
`fixAux r1 rest` processes run `r1` against the remaining runs.  The
`getLastD` default is unreachable because the tested run is non-empty
whenever `headIsUpper` holds. -/
def fixAux (r1 : List Char) : List (List Char) → List (List Char)
  | [] => [r1]
  | r2 :: rest =>
    if headIsUpper r1 && headIsLower r2 then
      r1.dropLast :: fixAux (r1.getLastD 'A' :: r2) rest
    else
      r1 :: fixAux r2 rest

/-- Second camelcase.Split loop over the whole run list. -/
def fixRuns : List (List Char) → List (List Char)
  | [] => []
  | r :: rs => fixAux r rs

/-- Model of `camelcase.Split`: split into class runs, apply the
upper-before-lower fix, and drop empty runs (Go appends only runs with
`len(s) > 0`). -/
def camelSplit (l : List Char) : List (List Char) :=
  (fixRuns (classRuns l)).filter (fun r => !r.isEmpty)

/-! ## The casee.ToSnakeCase model (`pinzolo/casee`) -/

/-- Model of casee's `splitToLowerFields`: split on whitespace
(`strings.Fields`), then on '-', then on '_', split each piece with
`camelcase.Split`, and lower-case every resulting field. -/
def splitToLowerFields (l : List Char) : List (List Char) :=
  ((((splitWhen goIsSpace l).filter (fun f => !f.isEmpty)).flatMap (fun sf =>
      (splitWhen (fun c => c == '-') sf).flatMap (fun sf2 =>
        (splitWhen (fun c => c == '_') sf2).flatMap camelSplit))).map
    (List.map goToLower))

/-- Join fields with '_' (Go `strings.Join(fields, "_")`). -/
def joinUnderscore : List (List Char) → List Char
  | [] => []
  | [f] => f
  | f :: fs => f ++ '_' :: joinUnderscore fs

/-- Model of `casee.ToSnakeCase` on character lists: an empty input is
returned unchanged, otherwise the lowered fields are joined with '_'. -/
def toSnakeCaseL (l : List Char) : List Char :=
  match l with
  | [] => []
  | _ :: _ => joinUnderscore (splitToLowerFields l)

/-- Model of `casee.ToSnakeCase` (the canonicalizer applied to
`quota.Metric` in both publisher variants). -/
def ToSnakeCase (s : String) : String :=
  String.mk (toSnakeCaseL s.data)

/-! ## Quota data model -/

/-- One quota record returned by the compute API (`compute.Quota`):
a metric name with a limit and a usage value. -/
structure Quota where
  Metric : String
  Limit : ℤ
  Usage : ℤ
deriving DecidableEq

/-! ## Publisher of src/main.go: four static GaugeVecs, `Set` semantics

A `GaugeVec` is modelled as an association list from label-value tuples to
the child gauge's current value; `WithLabelValues(...).Set(v)` creates the
child on first use and overwrites its value. -/

/-- Child gauges of one Prometheus GaugeVec, keyed by label values. -/
abbrev GaugeChildren : Type := List (List String × ℤ)

/-- Model of `WithLabelValues(lv...).Set(v)`: create the child on first
observation of the label tuple, then overwrite its value. -/
def gaugeSet (g : GaugeChildren) (lv : List String) (v : ℤ) : GaugeChildren :=
  if g.any (fun e => e.1 == lv) then
    g.map (fun e => if e.1 == lv then (e.1, v) else e)
  else
    g ++ [(lv, v)]

/-- Model of `WithLabelValues(lv...).Add(v)`: create the child (initial
value 0) on first observation, then add `v` to its value. -/
def gaugeAdd (g : GaugeChildren) (lv : List String) (v : ℤ) : GaugeChildren :=
  if g.any (fun e => e.1 == lv) then
    g.map (fun e => if e.1 == lv then (e.1, e.2 + v) else e)
  else
    g ++ [(lv, v)]

/-- Current value of the child gauge for a label tuple, if it exists. -/
def gaugeValue (g : GaugeChildren) (lv : List String) : Option ℤ :=
  (g.find? (fun e => e.1 == lv)).map (fun e => e.2)

/-- Number of registered children (time series) of a GaugeVec. -/
def gaugeCount (g : GaugeChildren) : Nat := g.length

/-- The four statically registered GaugeVecs of src/main.go:
`estafette_gcloud_global_quota_limit` and `..._usage` with labels
(project, metric), `estafette_gcloud_regional_quota_limit` and `..._usage`
with labels (project, region, metric). -/
structure MainGauges where
  globalQuotaLimit : GaugeChildren
  globalQuotaUsage : GaugeChildren
  regionalQuotaLimit : GaugeChildren
  regionalQuotaUsage : GaugeChildren
deriving DecidableEq

/-- State of src/main.go's gauges right after `init` registers them:
all four vecs exist with no children yet. -/
def initialMainGauges : MainGauges :=
  { globalQuotaLimit := []
    globalQuotaUsage := []
    regionalQuotaLimit := []
    regionalQuotaUsage := [] }

/-- Embedding of src/main.go `updateGlobalQuota`: for every quota, derive
the snake-case metric name and `Set` the global limit and usage gauges at
label values (project, metricName). -/
def updateGlobalQuota (quotas : List Quota) (project : String) (s : MainGauges) : MainGauges :=
  quotas.foldl (fun s quota =>
    let metricName := ToSnakeCase quota.Metric
    { s with
      globalQuotaLimit := gaugeSet s.globalQuotaLimit [project, metricName] quota.Limit
      globalQuotaUsage := gaugeSet s.globalQuotaUsage [project, metricName] quota.Usage }) s

/-- Embedding of src/main.go `updateRegionalQuota`: `Set` the regional
limit and usage gauges at label values (project, region, metricName). -/
def updateRegionalQuota (quotas : List Quota) (project region : String) (s : MainGauges) :
    MainGauges :=
  quotas.foldl (fun s quota =>
    let metricName := ToSnakeCase quota.Metric
    { s with
      regionalQuotaLimit := gaugeSet s.regionalQuotaLimit [project, region, metricName] quota.Limit
      regionalQuotaUsage := gaugeSet s.regionalQuotaUsage [project, region, metricName] quota.Usage }) s

/-! ## Publisher of src/unnamed/part_003: dynamic registry, `Add` semantics -/

/-- One dynamically created GaugeVec of the part_003 variant: the label
names it was registered with and its children. -/
structure GaugeVecEntry where
  labels : List String
  children : GaugeChildren
deriving DecidableEq

/-- The part_003 `gauges` map from gauge name to registered GaugeVec,
as an association list (insertion order; only lookups matter). -/
abbrev Registry : Type := List (String × GaugeVecEntry)

/-- Lookup of `gauges[name]`. -/
def regLookup (g : Registry) (name : String) : Option GaugeVecEntry :=
  (g.find? (fun e => e.1 == name)).map (fun e => e.2)

/-- Label names a gauge was registered with, if it exists. -/
def regLabels (g : Registry) (name : String) : Option (List String) :=
  (regLookup g name).map (fun e => e.labels)

/-- Value of the child with label values `lv` of gauge `name`, if any. -/
def regChildValue (g : Registry) (name : String) (lv : List String) : Option ℤ :=
  match regLookup g name with
  | some e => gaugeValue e.children lv
  | none => none

/-- Model of the `if _, ok := gauges[name]; !ok { ...; MustRegister }`
block: create and register the GaugeVec on first observation of its name,
otherwise leave the registry unchanged. -/
def ensureGauge (g : Registry) (name : String) (labels : List String) : Registry :=
  if (g.find? (fun e => e.1 == name)).isSome then g
  else g ++ [(name, { labels := labels, children := [] })]

/-- Model of `gauges[name].WithLabelValues(lv...).Add(v)`. -/
def regAdd (g : Registry) (name : String) (lv : List String) (v : ℤ) : Registry :=
  g.map (fun e =>
    if e.1 == name then (e.1, { e.2 with children := gaugeAdd e.2.children lv v }) else e)

/-- Body of the part_003 publisher loop for one quota: build the two gauge
names (prefix `estafette_gcloud_quota_` plus `global_` for the global
scope), ensure both gauges exist, and `Add` the limit and usage values at
the scope's label values. -/
def updateQuotaStep (project region : String) (g : Registry) (quota : Quota) : Registry :=
  let pfx := if region == "" then "estafette_gcloud_quota_global_" else "estafette_gcloud_quota_"
  let labels := if region == "" then ["project"] else ["project", "region"]
  let lv := if region == "" then [project] else [project, region]
  let quotaName := ToSnakeCase quota.Metric
  let quotaLimitName := pfx ++ quotaName ++ "_limit"
  let quotaUsageName := pfx ++ quotaName ++ "_usage"
  let g1 := ensureGauge g quotaLimitName labels
  let g2 := regAdd g1 quotaLimitName lv quota.Limit
  let g3 := ensureGauge g2 quotaUsageName labels
  regAdd g3 quotaUsageName lv quota.Usage

/-- Embedding of src/unnamed/part_003 `updatePrometheusTimelinesFromQuota`:
process every quota of the batch in order. -/
def updatePrometheusTimelinesFromQuota (quotas : List Quota) (project region : String)
    (g : Registry) : Registry :=
  quotas.foldl (updateQuotaStep project region) g

/-- Run a sequence of publish cycles, each given as (quotas, project,
region), against the part_003 registry. -/
def runCycles (cycles : List (List Quota × String × String)) (g : Registry) : Registry :=
  cycles.foldl (fun g c => updatePrometheusTimelinesFromQuota c.1 c.2.1 c.2.2 g) g

/-! ## The fetch loop (src/main.go `fetchQuota`)

The compute API collaborator is a pair of fallible functions; `fetchQuota`
is embedded as the trace of API calls and publish operations it performs,
together with a flag recording whether it ended in `log.Fatal` (which
terminates the whole process).  After a fatal call nothing further runs,
so the trace simply stops there. -/

/-- External compute API: `Projects.Get(project)` returns the project's
quotas, `Regions.Get(project, region)` the region's quotas; either can
fail with an error. -/
structure ComputeService where
  projectsGet : String → Except String (List Quota)
  regionsGet : String → String → Except String (List Quota)

/-- Boolean success test for an API result. -/
def exceptOk {ε α : Type} : Except ε α → Bool
  | Except.ok _ => true
  | Except.error _ => false

/-- One observable action of a fetch cycle. -/
inductive FetchEvent where
  | getProject (project : String)
  | publishGlobal (project : String) (quotas : List Quota)
  | getRegion (project region : String)
  | publishRegional (project region : String) (quotas : List Quota)
deriving DecidableEq

/-- Project identifier an event belongs to. -/
def eventProject : FetchEvent → String
  | FetchEvent.getProject p => p
  | FetchEvent.publishGlobal p _ => p
  | FetchEvent.getRegion p _ => p
  | FetchEvent.publishRegional p _ _ => p

/-- Inner loop of `fetchQuota` over the configured regions for one
project: each iteration calls `Regions.Get` and, on success, publishes the
regional quotas; on error it `log.Fatal`s (second component `true`),
halting everything. -/
def fetchRegions (svc : ComputeService) (project : String) :
    List String → List FetchEvent × Bool
  | [] => ([], false)
  | region :: rest =>
    match svc.regionsGet project region with
    | Except.error _ => ([FetchEvent.getRegion project region], true)
    | Except.ok quotas =>
      let t := fetchRegions svc project rest
      (FetchEvent.getRegion project region ::
        FetchEvent.publishRegional project region quotas :: t.1, t.2)

/-- Embedding of src/main.go `fetchQuota`: for each project in order, call
`Projects.Get`; on error `log.Fatal` (trace ends, flag `true`); on success
publish the global quotas, then run the region loop; a fatal region halts
the remaining projects as well. -/
def fetchQuotaTrace (svc : ComputeService) :
    List String → List String → List FetchEvent × Bool
  | [], _ => ([], false)
  | project :: rest, regions =>
    match svc.projectsGet project with
    | Except.error _ => ([FetchEvent.getProject project], true)
    | Except.ok quotas =>
      let rt := fetchRegions svc project regions
      if rt.2 then
        (FetchEvent.getProject project ::
          FetchEvent.publishGlobal project quotas :: rt.1, true)
      else
        let ft := fetchQuotaTrace svc rest regions
        (FetchEvent.getProject project ::
          FetchEvent.publishGlobal project quotas :: (rt.1 ++ ft.1), ft.2)

/-- Whether the whole fetch for one project succeeds: `Projects.Get`
succeeds and `Regions.Get` succeeds for every configured region. -/
def projectFetchOk (svc : ComputeService) (regions : List String) (project : String) : Bool :=
  exceptOk (svc.projectsGet project) &&
    regions.all (fun r => exceptOk (svc.regionsGet project r))

/-- Projects for which a `Projects.Get` attempt appears in a trace. -/
def projectsAttempted (evs : List FetchEvent) : List String :=
  evs.filterMap (fun e =>
    match e with
    | FetchEvent.getProject p => some p
    | _ => none)

/-- Model of Go `strings.Split` with a one-character separator, as used on
the comma-separated project and region flags (`strings.Split(s, ",")`).
Like Go, splitting the empty string yields one empty piece. -/
def goSplitComma (s : String) : List String :=
  (splitWhen (fun c => c == ',') s.data).map String.mk

/-- Concrete compute service used in witnesses: `Projects.Get` fails for
project "b" and succeeds (with an empty quota list) for every other
project; `Regions.Get` always succeeds. -/
def svcW : ComputeService where
  projectsGet p := if p == "b" then Except.error "Retrieving project detail failed" else Except.ok []
  regionsGet _ _ := Except.ok []

/-! ## The jitter helper (`applyJitter`, identical in all variants)

Go computes `deviation := int(0.25 * float64(input))`: the product is
exact in `float64` for `|input| < 2^53` (0.25 is a power of two), and the
`int` conversion truncates toward zero, so `deviation` is `input / 4`
rounded toward zero; every call site uses 30 or 60.  `r.Intn(n)` returns a
uniform draw in `[0, n)` and panics when `n <= 0`; the panic is modelled
as `none`, and the draw is passed as an explicit argument. -/

/-- Embedding of `applyJitter`: `input - deviation + draw` where
`deviation` truncates `0.25 * input` toward zero, and `none` when
`r.Intn(2*deviation)` would panic because its bound is not positive. -/
def applyJitter (input draw : ℤ) : Option ℤ :=
  let deviation := if 0 ≤ input then input / 4 else -((-input) / 4)
  if 0 < 2 * deviation then some (input - deviation + draw) else none

/-! ## Shutdown coordination (src/unnamed/part_003 `main`, lines 134-152;
src/main.go behaves identically through
`foundation.HandleGracefulShutdown`)

The quota goroutine loops `for { sleep; fetch }` with no check of the
shutdown channel and no `waitGroup.Add`/`Done` anywhere in the sources;
`main` blocks on the signal channel, logs "Waiting on running tasks to
finish...", calls `waitGroup.Wait()` (which returns as soon as the counter
is zero) and returns, ending the process.  The interleaving of the two
goroutines is modelled as a transition system. -/

/-- Position of the quota goroutine in its loop. -/
inductive SchedPhase where
  | fetching
  | sleeping
deriving DecidableEq

/-- Joint state: the goroutine's phase, whether the shutdown signal has
been delivered, whether `main` has returned (process exit), and the
`sync.WaitGroup` counter. -/
structure ExporterState where
  phase : SchedPhase
  signalled : Bool
  exited : Bool
  wg : Nat
deriving DecidableEq

/-- Transitions of the exporter process.  The goroutine's steps carry no
guard on `signalled` because the loop body never reads the shutdown
channel; no step changes `wg` because the sources never call
`waitGroup.Add` or `Done`; `main` may return once the signal was received
and the counter is zero (`waitGroup.Wait()` returns immediately then). -/
inductive ExporterStep : ExporterState → ExporterState → Prop where
  | finishCycle (s : ExporterState) :
      s.exited = false → s.phase = SchedPhase.fetching →
      ExporterStep s { s with phase := SchedPhase.sleeping }
  | startCycle (s : ExporterState) :
      s.exited = false → s.phase = SchedPhase.sleeping →
      ExporterStep s { s with phase := SchedPhase.fetching }
  | deliverSignal (s : ExporterState) :
      s.signalled = false →
      ExporterStep s { s with signalled := true }
  | exit (s : ExporterState) :
      s.exited = false → s.signalled = true → s.wg = 0 →
      ExporterStep s { s with exited := true }

/-! ## Predicates used in the canonicalizer proofs -/

/-- A run whose characters are all ASCII letters. -/
def LetterRun (r : List Char) : Prop :=
  ∀ c ∈ r, goIsUpper c = true ∨ goIsLower c = true

/-- A run whose characters all share one camelcase character class. -/
def UniformRun (r : List Char) : Prop :=
  ∃ k, ∀ c ∈ r, charClass c = k

/-- Invariant preserved by the camelcase fix loop: a run is all-letters or
class-uniform. -/
def GoodRun (r : List Char) : Prop :=
  LetterRun r ∨ UniformRun r

/-- A character as it appears in a canonicalized field: no whitespace, no
'-', no '_', and fixed by lower-casing. -/
def CleanChar (c : Char) : Prop :=
  goIsSpace c = false ∧ c ≠ '-' ∧ c ≠ '_' ∧ goToLower c = c

/-- Invariant of every field produced by `splitToLowerFields`: non-empty,
clean characters, and class-uniform. -/
def GoodField (f : List Char) : Prop :=
  f ≠ [] ∧ (∀ c ∈ f, CleanChar c) ∧ ∃ k, ∀ c ∈ f, charClass c = k

/-! ## Claim theorems -/

/-- Claim C1: when a second fetch cycle observes `{metric: "CPUS", limit:
100, usage: 50}` for the same project after a first cycle with usage 42,
the publisher of src/main.go (`updateGlobalQuota`, which uses `Set`)
updates the existing time series in place — the series count stays at one —
and the published usage value is the new observation 50, not the
accumulated 92; the superseded part_003 variant (which uses `Add`) instead
accumulates to 92 on the same inputs, the source discrepancy the spec
flags. -/
theorem updateGlobalQuota_secondCycle_overwrites :
    (let cycle1 := updateGlobalQuota [{ Metric := "CPUS", Limit := 100, Usage := 42 }] "proj-a"
      initialMainGauges
    let cycle2 := updateGlobalQuota [{ Metric := "CPUS", Limit := 100, Usage := 50 }] "proj-a"
      cycle1
    gaugeValue cycle2.globalQuotaUsage ["proj-a", "cpus"] = some 50 ∧
    gaugeValue cycle2.globalQuotaUsage ["proj-a", "cpus"] ≠ some 92 ∧
    gaugeCount cycle2.globalQuotaUsage = gaugeCount cycle1.globalQuotaUsage ∧
    gaugeCount cycle2.globalQuotaUsage = 1 ∧
    gaugeValue cycle2.globalQuotaLimit ["proj-a", "cpus"] = some 100) ∧
    (let g1 := updatePrometheusTimelinesFromQuota
      [{ Metric := "CPUS", Limit := 100, Usage := 42 }] "proj-a" "" []
    let g2 := updatePrometheusTimelinesFromQuota
      [{ Metric := "CPUS", Limit := 100, Usage := 50 }] "proj-a" "" g1
    regChildValue g2 "estafette_gcloud_quota_global_cpus_usage" ["proj-a"] = some 92 ∧
    g2.length = g1.length) := by
  decide

/-- Claim C5: on the first observation of `{metric: "CPUS", limit: 100,
usage: 42}` for project "proj-a" in global scope, the part_003 publisher
creates a limit gauge and a usage gauge whose names end in `_cpus_limit`
and `_cpus_usage`, registered with the single label `project`, and their
children for label value "proj-a" hold 100 and 42. -/
theorem publisher_first_observation_creates_gauges :
    (let g := updatePrometheusTimelinesFromQuota
      [{ Metric := "CPUS", Limit := 100, Usage := 42 }] "proj-a" "" []
    "estafette_gcloud_quota_global" ++ "_cpus_limit" =
      "estafette_gcloud_quota_global_cpus_limit" ∧
    "estafette_gcloud_quota_global" ++ "_cpus_usage" =
      "estafette_gcloud_quota_global_cpus_usage" ∧
    regLabels g "estafette_gcloud_quota_global_cpus_limit" = some ["project"] ∧
    regLabels g "estafette_gcloud_quota_global_cpus_usage" = some ["project"] ∧
    regChildValue g "estafette_gcloud_quota_global_cpus_limit" ["proj-a"] = some 100 ∧
    regChildValue g "estafette_gcloud_quota_global_cpus_usage" ["proj-a"] = some 42) := by
  decide

/-- Claim C2 counterexample: the claim computes the deviation as
`round(0.25 * base)`, but the code truncates (`int(0.25 *
float64(input))`).  At the configured base 30 (used by one source variant)
with random draw 0 the code yields 30 - 7 + 0 = 23, while the claimed
formula yields 30 - round(7.5) + 0 = 22. -/
theorem applyJitter_round_formula_counterexample :
    applyJitter 30 0 = some 23 ∧
    (30 : ℤ) - round ((0.25 : ℚ) * 30) + 0 = 22 ∧
    (23 : ℤ) ≠ 22 := by
  refine ⟨by decide, ?_, by decide⟩
  norm_num [round_eq]

/-- Claim C2 (amended): for every base ≥ 4 and every possible draw of
`r.Intn(2*deviation)` (uniform on `[0, 2*deviation)`), the jittered sleep
equals `base - deviation + draw` with `deviation = int(0.25*base)`
truncated toward zero (= `base / 4` for non-negative base), and the result
lies in the half-open interval `[0.75*base, 1.25*base)` — stated
integrally as `3*base ≤ 4*result` and `4*result < 5*base`. -/
theorem applyJitter_trunc_formula_range (base draw : ℤ) (h4 : 4 ≤ base)
    (h0 : 0 ≤ draw) (h2 : draw < 2 * (base / 4)) :
    applyJitter base draw = some (base - base / 4 + draw) ∧
    3 * base ≤ 4 * (base - base / 4 + draw) ∧
    4 * (base - base / 4 + draw) < 5 * base := by
  have hb : (0 : ℤ) ≤ base := by omega
  have h1 : (if (0 : ℤ) ≤ base then base / 4 else -((-base) / 4)) = base / 4 := if_pos hb
  have hd : (0 : ℤ) < 2 * (base / 4) := by omega
  unfold applyJitter
  simp only [h1, if_pos hd]
  exact ⟨by simp, by omega, by omega⟩

/-- Witness for the amended claim C2 at base 60 (the interval used by
src/main.go) and draw 0: the sleep is 45 = 0.75 * 60. -/
theorem applyJitter_trunc_formula_range_witness :
    applyJitter 60 0 = some (60 - 60 / 4 + 0) ∧
    3 * 60 ≤ 4 * ((60 : ℤ) - 60 / 4 + 0) ∧
    4 * ((60 : ℤ) - 60 / 4 + 0) < 5 * 60 :=
  applyJitter_trunc_formula_range 60 0 (by decide) (by decide) (by decide)

/-- Claim C9: `applyJitter` is partial.  `deviation = int(0.25 *
float64(input))` is non-positive exactly when `input ≤ 3` (including 0 and
negative inputs), and then `r.Intn(2*deviation)` is called with a
non-positive bound and panics (modelled as `none`); a value is returned
exactly when `input ≥ 4`. -/
theorem applyJitter_partial_below_four (input draw : ℤ) :
    (applyJitter input draw = none ↔ input ≤ 3) ∧
    ((applyJitter input draw).isSome = true ↔ 4 ≤ input) := by
  unfold applyJitter
  by_cases hb : (0 : ℤ) ≤ input
  · simp only [if_pos hb]
    by_cases hd : (0 : ℤ) < 2 * (input / 4)
    · simp only [if_pos hd]
      simp only [Option.isSome_some]
      constructor
      · constructor
        · intro h; exact absurd h (by simp)
        · intro h; omega
      · constructor
        · intro _; omega
        · intro _; trivial
    · simp only [if_neg hd]
      simp only [Option.isSome_none]
      constructor
      · constructor
        · intro _; omega
        · intro _; trivial
      · constructor
        · intro h; exact absurd h (by simp)
        · intro h; omega
  · have hneg : input < 0 := by omega
    have hd : ¬ (0 : ℤ) < 2 * (-((-input) / 4)) := by
      have : (0 : ℤ) ≤ (-input) / 4 := by omega
      omega
    simp only [if_neg hb, if_neg hd]
    simp only [Option.isSome_none]
    constructor
    · constructor
      · intro _; omega
      · intro _; trivial
    · constructor
      · intro h; exact absurd h (by simp)
      · intro h; omega

/-- Claim C4 is wrong about the code (code bug): the sources log "Waiting
on running tasks to finish..." and call `waitGroup.Wait()`, but the quota
goroutine never calls `waitGroup.Add`/`Done` and its loop never reads the
shutdown channel.  Consequently (1) from a state where a fetch/publish
cycle is in progress, the signal can arrive and the process can exit
immediately, abandoning the in-flight cycle, and (2) after the signal the
goroutine can still start a new cycle before the exit happens. -/
theorem shutdown_abandons_inflight_cycle :
    ExporterStep
      { phase := SchedPhase.fetching, signalled := false, exited := false, wg := 0 }
      { phase := SchedPhase.fetching, signalled := true, exited := false, wg := 0 } ∧
    ExporterStep
      { phase := SchedPhase.fetching, signalled := true, exited := false, wg := 0 }
      { phase := SchedPhase.fetching, signalled := true, exited := true, wg := 0 } ∧
    ExporterStep
      { phase := SchedPhase.sleeping, signalled := true, exited := false, wg := 0 }
      { phase := SchedPhase.fetching, signalled := true, exited := false, wg := 0 } :=
  ⟨ExporterStep.deliverSignal _ rfl,
   ExporterStep.exit _ rfl rfl rfl,
   ExporterStep.startCycle _ rfl rfl⟩

/-- Helper: the region loop of a project emits no `Projects.Get` events. -/
theorem projectsAttempted_fetchRegions (svc : ComputeService) (p : String) (rs : List String) :
    projectsAttempted (fetchRegions svc p rs).1 = [] := by
  induction rs with
  | nil => rfl
  | cons r rest ih =>
    unfold fetchRegions
    cases svc.regionsGet p r with
    | error e => rfl
    | ok quotas =>
      simp only [projectsAttempted, List.filterMap_cons] at ih ⊢
      exact ih

/-- Claim C10: the project flag defaults to the empty string, and Go's
`strings.Split("", ",")` yields the one-element list `[""]`, so a cycle
still performs exactly one `Projects.Get` attempt, with the empty project
identifier — never zero attempts. -/
theorem empty_project_flag_single_fetch (svc : ComputeService) (regions : List String) :
    goSplitComma "" = [""] ∧
    projectsAttempted (fetchQuotaTrace svc (goSplitComma "") regions).1 = [""] := by
  have hsplit : goSplitComma "" = [""] := by decide
  refine ⟨hsplit, ?_⟩
  rw [hsplit]
  have hr := projectsAttempted_fetchRegions svc "" regions
  simp only [projectsAttempted] at hr ⊢
  unfold fetchQuotaTrace
  cases hp : svc.projectsGet "" with
  | error e => rfl
  | ok quotas =>
    dsimp only
    by_cases hfatal : (fetchRegions svc "" regions).2 = true
    · rw [if_pos hfatal]
      simp [List.filterMap_cons, hr]
    · rw [if_neg hfatal]
      have hnil : fetchQuotaTrace svc [] regions = ([], false) := rfl
      rw [hnil]
      simp [List.filterMap_cons, List.filterMap_append, hr]

/-- Helper: every event of the region loop for project `p` belongs to `p`. -/
theorem eventProject_fetchRegions (svc : ComputeService) (p : String) (rs : List String) :
    ∀ e ∈ (fetchRegions svc p rs).1, eventProject e = p := by
  induction rs with
  | nil => intro e he; simp [fetchRegions] at he
  | cons r rest ih =>
    intro e he
    unfold fetchRegions at he
    cases hr : svc.regionsGet p r with
    | error msg =>
      rw [hr] at he
      simp only [List.mem_singleton] at he
      subst he; rfl
    | ok quotas =>
      rw [hr] at he
      simp only [List.mem_cons] at he
      rcases he with h | h | h
      · subst h; rfl
      · subst h; rfl
      · exact ih e h

/-- Helper: the region loop ends fatally exactly when some `Regions.Get`
fails. -/
theorem fetchRegions_fatal_iff (svc : ComputeService) (p : String) (rs : List String) :
    (fetchRegions svc p rs).2 = !(rs.all (fun r => exceptOk (svc.regionsGet p r))) := by
  induction rs with
  | nil => rfl
  | cons r rest ih =>
    unfold fetchRegions
    cases hr : svc.regionsGet p r with
    | error msg => simp [List.all_cons, hr, exceptOk]
    | ok quotas => simp [List.all_cons, hr, exceptOk, ih]

/-- Claim C3: in a multi-project configuration, if every project before
`p` fetches cleanly and the fetch for `p` (its `Projects.Get` or one of
its `Regions.Get` calls) fails, the cycle ends in `log.Fatal` (the process
terminates) and every event of the cycle — in particular every publish —
belongs to the earlier projects or to `p` itself; nothing from any project
after the failure is fetched or published. -/
theorem fetchQuota_failure_halts_cycle (svc : ComputeService) (ps₁ : List String)
    (p : String) (ps₂ regions : List String)
    (h1 : ∀ q ∈ ps₁, projectFetchOk svc regions q = true)
    (h2 : projectFetchOk svc regions p = false) :
    (fetchQuotaTrace svc (ps₁ ++ p :: ps₂) regions).2 = true ∧
    ∀ e ∈ (fetchQuotaTrace svc (ps₁ ++ p :: ps₂) regions).1,
      eventProject e ∈ ps₁ ++ [p] := by
  induction ps₁ with
  | nil =>
    simp only [List.nil_append]
    unfold fetchQuotaTrace
    cases hp : svc.projectsGet p with
    | error msg =>
      refine ⟨rfl, ?_⟩
      intro e he
      simp only [List.mem_singleton] at he
      subst he
      simp [eventProject]
    | ok quotas =>
      dsimp only
      have hok : exceptOk (svc.projectsGet p) = true := by rw [hp]; rfl
      have hfail : regions.all (fun r => exceptOk (svc.regionsGet p r)) = false := by
        cases hx : regions.all (fun r => exceptOk (svc.regionsGet p r)) with
        | false => rfl
        | true =>
          unfold projectFetchOk at h2
          rw [hok, hx] at h2
          simp at h2
      have hfatal : (fetchRegions svc p regions).2 = true := by
        rw [fetchRegions_fatal_iff, hfail]
        rfl
      rw [if_pos hfatal]
      refine ⟨rfl, ?_⟩
      intro e he
      simp only [List.mem_cons] at he
      rcases he with h | h | h
      · subst h; simp [eventProject]
      · subst h; simp [eventProject]
      · have := eventProject_fetchRegions svc p regions e h
        simp [this]
  | cons q qs ih =>
    have hq := h1 q (by simp)
    have hrest : ∀ x ∈ qs, projectFetchOk svc regions x = true := by
      intro x hx; exact h1 x (by simp [hx])
    have ihq := ih hrest
    simp only [List.cons_append]
    unfold fetchQuotaTrace
    cases hp : svc.projectsGet q with
    | error msg =>
      unfold projectFetchOk at hq
      rw [hp] at hq
      simp [exceptOk] at hq
    | ok quotas =>
      dsimp only
      have hallr : regions.all (fun r => exceptOk (svc.regionsGet q r)) = true := by
        unfold projectFetchOk at hq
        rw [hp] at hq
        simpa [exceptOk] using hq
      have hnofatal : ¬ (fetchRegions svc q regions).2 = true := by
        rw [fetchRegions_fatal_iff, hallr]
        simp
      rw [if_neg hnofatal]
      refine ⟨ihq.1, ?_⟩
      intro e he
      simp only [List.mem_cons, List.mem_append] at he
      rcases he with h | h | h
      · subst h; simp [eventProject]
      · subst h; simp [eventProject]
      · rcases h with h | h
        · have := eventProject_fetchRegions svc q regions e h
          simp [this]
        · have := ihq.2 e h
          simp only [List.mem_append, List.mem_singleton] at this
          simp only [List.mem_cons, List.mem_append, List.mem_singleton]
          rcases this with h' | h'
          · exact Or.inr (Or.inl h')
          · exact Or.inr (Or.inr (Or.inl h'))

/-- Witness for claim C3: with the concrete service `svcW` (project "b"
fails), projects ["a", "b", "c"] and no regions, the cycle is fatal and
every event belongs to "a" or "b" — project "c" is never touched. -/
theorem fetchQuota_failure_halts_cycle_witness :
    (fetchQuotaTrace svcW (["a"] ++ "b" :: ["c"]) []).2 = true ∧
    ∀ e ∈ (fetchQuotaTrace svcW (["a"] ++ "b" :: ["c"]) []).1,
      eventProject e ∈ ["a"] ++ ["b"] :=
  fetchQuota_failure_halts_cycle svcW ["a"] "b" ["c"] []
    (by decide) (by decide)

/-- Helper: full characterization of a lookup after `regAdd` — the entry
for the added-to name has its children updated, every other entry is
untouched, and no entry appears or disappears. -/
theorem regLookup_regAdd (g : Registry) (name : String) (lv : List String) (v : ℤ)
    (k : String) :
    regLookup (regAdd g name lv v) k =
      Option.map (fun e =>
          if k = name then { e with children := gaugeAdd e.children lv v } else e)
        (regLookup g k) := by
  induction g with
  | nil => rfl
  | cons ent rest ih =>
    unfold regAdd regLookup at ih ⊢
    simp only [List.map_cons, List.find?_cons]
    have hkey : (if (ent.1 == name) = true
        then (ent.1, { ent.2 with children := gaugeAdd ent.2.children lv v })
        else ent).1 = ent.1 := by split <;> rfl
    rw [hkey]
    cases hek : ent.1 == k with
    | true =>
      have hkk : ent.1 = k := beq_iff_eq.mp hek
      subst hkk
      simp only [Option.map_some]
      by_cases hn : ent.1 = name
      · simp [beq_iff_eq, hn]
      · simp [beq_iff_eq, hn]
    | false => exact ih

/-- Helper: looking up a key other than the added-to one is unaffected by
`regAdd`. -/
theorem regLookup_regAdd_ne (g : Registry) (name : String) (lv : List String) (v : ℤ)
    (k : String) (h : k ≠ name) :
    regLookup (regAdd g name lv v) k = regLookup g k := by
  rw [regLookup_regAdd]
  cases regLookup g k with
  | none => rfl
  | some e => simp [h]

/-- Helper: `regAdd` keeps every registered key registered and preserves
its label set (only children change). -/
theorem regLookup_regAdd_of_some (g : Registry) (name : String) (lv : List String) (v : ℤ)
    (k : String) (e : GaugeVecEntry) (h : regLookup g k = some e) :
    ∃ e2, regLookup (regAdd g name lv v) k = some e2 ∧ e2.labels = e.labels := by
  rw [regLookup_regAdd, h]
  by_cases hn : k = name
  · refine ⟨{ e with children := gaugeAdd e.children lv v }, ?_, rfl⟩
    simp [hn]
  · refine ⟨e, ?_, rfl⟩
    simp [hn]

/-- Helper: looking up a key other than the ensured one is unaffected. -/
theorem regLookup_ensureGauge_ne (g : Registry) (name : String) (labels : List String)
    (k : String) (h : k ≠ name) :
    regLookup (ensureGauge g name labels) k = regLookup g k := by
  unfold ensureGauge
  split
  · rfl
  · unfold regLookup
    rw [List.find?_append]
    have hn : List.find? (fun e => e.1 == k)
        ([(name, { labels := labels, children := [] })] : Registry) = none := by
      have : ¬ name = k := fun hx => h hx.symm
      simp [List.find?_cons, beq_iff_eq, this]
    rw [hn]
    cases List.find? (fun e => e.1 == k) g <;> rfl

/-- Helper: a registered entry survives `ensureGauge` unchanged. -/
theorem regLookup_ensureGauge_of_some (g : Registry) (name : String) (labels : List String)
    (k : String) (e : GaugeVecEntry) (h : regLookup g k = some e) :
    regLookup (ensureGauge g name labels) k = some e := by
  unfold ensureGauge
  split
  · exact h
  · unfold regLookup at h ⊢
    rw [List.find?_append]
    cases hf : List.find? (fun x => x.1 == k) g with
    | none => rw [hf] at h; simp at h
    | some ent =>
      rw [hf] at h
      rw [Option.or_eq_orElse]
      simp [Option.orElse, h]

/-- Helper: an `ensureGauge` followed by `regAdd` on the same name keeps
every registered key registered with unchanged labels. -/
theorem regLookup_ensureAdd_of_some (g : Registry) (nm : String) (labels lv : List String)
    (v : ℤ) (k : String) (e : GaugeVecEntry) (h : regLookup g k = some e) :
    ∃ e2, regLookup (regAdd (ensureGauge g nm labels) nm lv v) k = some e2 ∧
      e2.labels = e.labels :=
  regLookup_regAdd_of_some _ nm lv v k e (regLookup_ensureGauge_of_some g nm labels k e h)

/-- Helper: one publisher step keeps every registered key registered with
unchanged labels. -/
theorem regLookup_updateQuotaStep_of_some (p region : String) (g : Registry) (q : Quota)
    (k : String) (e : GaugeVecEntry) (h : regLookup g k = some e) :
    ∃ e2, regLookup (updateQuotaStep p region g q) k = some e2 ∧ e2.labels = e.labels := by
  obtain ⟨e2, h2, hl2⟩ := regLookup_ensureAdd_of_some g
    ((if region == "" then "estafette_gcloud_quota_global_" else "estafette_gcloud_quota_") ++
      ToSnakeCase q.Metric ++ "_limit")
    (if region == "" then ["project"] else ["project", "region"])
    (if region == "" then [p] else [p, region]) q.Limit k e h
  obtain ⟨e3, h3, hl3⟩ := regLookup_ensureAdd_of_some _
    ((if region == "" then "estafette_gcloud_quota_global_" else "estafette_gcloud_quota_") ++
      ToSnakeCase q.Metric ++ "_usage")
    (if region == "" then ["project"] else ["project", "region"])
    (if region == "" then [p] else [p, region]) q.Usage k e2 h2
  exact ⟨e3, h3, by rw [hl3, hl2]⟩

/-- Helper: a whole publish cycle keeps every registered key registered
with unchanged labels. -/
theorem regLookup_updateBatch_of_some (quotas : List Quota) (p region : String)
    (g : Registry) (k : String) (e : GaugeVecEntry) (h : regLookup g k = some e) :
    ∃ e2, regLookup (updatePrometheusTimelinesFromQuota quotas p region g) k = some e2 ∧
      e2.labels = e.labels := by
  induction quotas generalizing g e with
  | nil => exact ⟨e, h, rfl⟩
  | cons q rest ih =>
    obtain ⟨e2, h2, hl2⟩ := regLookup_updateQuotaStep_of_some p region g q k e h
    obtain ⟨e3, h3, hl3⟩ := ih _ _ h2
    exact ⟨e3, h3, by rw [hl3, hl2]⟩

/-- Claim C8: the part_003 Metric Registry only grows.  Whatever sequence
of publish cycles runs, a gauge that is registered under some name stays
registered under that name with the same label set for the rest of the
process lifetime — no operation removes it, and it is never re-created
with different registration data (only its children's values change). -/
theorem registry_monotone_across_cycles (cycles : List (List Quota × String × String))
    (g : Registry) (k : String) (e : GaugeVecEntry) (h : regLookup g k = some e) :
    ∃ e2, regLookup (runCycles cycles g) k = some e2 ∧ e2.labels = e.labels := by
  induction cycles generalizing g e with
  | nil => exact ⟨e, h, rfl⟩
  | cons c rest ih =>
    obtain ⟨e2, h2, hl2⟩ := regLookup_updateBatch_of_some c.1 c.2.1 c.2.2 g k e h
    obtain ⟨e3, h3, hl3⟩ := ih _ _ h2
    exact ⟨e3, h3, by rw [hl3, hl2]⟩

/-- Witness for claim C8: a registry holding gauge "g0" with label
`project`, after a cycle publishing a CPUS observation, still holds "g0"
with the same label set. -/
theorem registry_monotone_across_cycles_witness :
    ∃ e2, regLookup
        (runCycles [([{ Metric := "CPUS", Limit := 100, Usage := 42 }], "proj-a", "")]
          [("g0", { labels := ["project"], children := [] })])
        "g0" = some e2 ∧
      e2.labels = GaugeVecEntry.labels { labels := ["project"], children := [] } :=
  registry_monotone_across_cycles
    [([{ Metric := "CPUS", Limit := 100, Usage := 42 }], "proj-a", "")]
    [("g0", { labels := ["project"], children := [] })] "g0"
    { labels := ["project"], children := [] } (by decide)

/-- Helper: strings of different lengths are different. -/
theorem ne_of_ne_length (a b : String) (h : a.length ≠ b.length) : a ≠ b :=
  fun he => h (he ▸ rfl)

/-- Helper: two prefix-s-suffix gauge names with different prefix lengths
and equal suffix lengths differ. -/
theorem affix_ne (a b s t u : String) (hab : a.length ≠ b.length)
    (htu : t.length = u.length) : a ++ s ++ t ≠ b ++ s ++ u := by
  apply ne_of_ne_length
  simp only [String.length_append]
  omega

/-- Helper: one publisher step leaves the lookup of any key other than the
step's two gauge names unchanged. -/
theorem regLookup_updateQuotaStep_ne (p region : String) (g : Registry) (q : Quota)
    (k : String)
    (hl : k ≠ (if region == "" then "estafette_gcloud_quota_global_"
      else "estafette_gcloud_quota_") ++ ToSnakeCase q.Metric ++ "_limit")
    (hu : k ≠ (if region == "" then "estafette_gcloud_quota_global_"
      else "estafette_gcloud_quota_") ++ ToSnakeCase q.Metric ++ "_usage") :
    regLookup (updateQuotaStep p region g q) k = regLookup g k := by
  unfold updateQuotaStep
  simp only []
  rw [regLookup_regAdd_ne _ _ _ _ _ hu, regLookup_ensureGauge_ne _ _ _ _ hu,
    regLookup_regAdd_ne _ _ _ _ _ hl, regLookup_ensureGauge_ne _ _ _ _ hl]

/-- Claim C6: for any metric name, the global-scope gauges and the
regional-scope gauges of the part_003 publisher use distinct registry
names (prefix `estafette_gcloud_quota_global_` vs
`estafette_gcloud_quota_`) and distinct label sets, and publishing an
observation in one scope never touches the other scope's registry entries
for the same metric. -/
theorem global_regional_gauges_disjoint (m p region : String) (lim use : ℤ)
    (g : Registry) (hr : region ≠ "") :
    ("estafette_gcloud_quota_global_" ++ ToSnakeCase m ++ "_limit" ≠
      "estafette_gcloud_quota_" ++ ToSnakeCase m ++ "_limit") ∧
    ("estafette_gcloud_quota_global_" ++ ToSnakeCase m ++ "_usage" ≠
      "estafette_gcloud_quota_" ++ ToSnakeCase m ++ "_usage") ∧
    ((["project"] : List String) ≠ ["project", "region"]) ∧
    (regLookup
        (updatePrometheusTimelinesFromQuota [{ Metric := m, Limit := lim, Usage := use }]
          p "" g)
        ("estafette_gcloud_quota_" ++ ToSnakeCase m ++ "_limit") =
      regLookup g ("estafette_gcloud_quota_" ++ ToSnakeCase m ++ "_limit")) ∧
    (regLookup
        (updatePrometheusTimelinesFromQuota [{ Metric := m, Limit := lim, Usage := use }]
          p "" g)
        ("estafette_gcloud_quota_" ++ ToSnakeCase m ++ "_usage") =
      regLookup g ("estafette_gcloud_quota_" ++ ToSnakeCase m ++ "_usage")) ∧
    (regLookup
        (updatePrometheusTimelinesFromQuota [{ Metric := m, Limit := lim, Usage := use }]
          p region g)
        ("estafette_gcloud_quota_global_" ++ ToSnakeCase m ++ "_limit") =
      regLookup g ("estafette_gcloud_quota_global_" ++ ToSnakeCase m ++ "_limit")) ∧
    (regLookup
        (updatePrometheusTimelinesFromQuota [{ Metric := m, Limit := lim, Usage := use }]
          p region g)
        ("estafette_gcloud_quota_global_" ++ ToSnakeCase m ++ "_usage") =
      regLookup g ("estafette_gcloud_quota_global_" ++ ToSnakeCase m ++ "_usage")) := by
  have hlen : ("estafette_gcloud_quota_global_" : String).length ≠
      ("estafette_gcloud_quota_" : String).length := by decide
  have hlen2 : ("estafette_gcloud_quota_" : String).length ≠
      ("estafette_gcloud_quota_global_" : String).length := fun hx => hlen hx.symm
  have hll : ("_limit" : String).length = ("_limit" : String).length := rfl
  have huu : ("_usage" : String).length = ("_usage" : String).length := rfl
  have hlu : ("_limit" : String).length = ("_usage" : String).length := by decide
  have hul : ("_usage" : String).length = ("_limit" : String).length := by decide
  have hbatch : ∀ (q : Quota) (r : String) (g0 : Registry),
      updatePrometheusTimelinesFromQuota [q] p r g0 = updateQuotaStep p r g0 q :=
    fun _ _ _ => rfl
  have hrb : (region == "") = false := beq_eq_false_iff_ne.mpr hr
  have hif : (if region == "" then "estafette_gcloud_quota_global_"
      else "estafette_gcloud_quota_") = "estafette_gcloud_quota_" := by
    rw [hrb]
    rfl
  refine ⟨affix_ne _ _ _ _ _ hlen hll, affix_ne _ _ _ _ _ hlen huu,
    by simp, ?_, ?_, ?_, ?_⟩
  · rw [hbatch]
    exact regLookup_updateQuotaStep_ne p "" g _ _
      (affix_ne _ _ _ _ _ hlen2 hll) (affix_ne _ _ _ _ _ hlen2 hlu)
  · rw [hbatch]
    exact regLookup_updateQuotaStep_ne p "" g _ _
      (affix_ne _ _ _ _ _ hlen2 hul) (affix_ne _ _ _ _ _ hlen2 huu)
  · rw [hbatch]
    have h1 : ("estafette_gcloud_quota_global_" ++ ToSnakeCase m ++ "_limit" : String) ≠
        (if region == "" then "estafette_gcloud_quota_global_"
          else "estafette_gcloud_quota_") ++ ToSnakeCase m ++ "_limit" := by
      rw [hif]
      exact affix_ne _ _ _ _ _ hlen hll
    have h2 : ("estafette_gcloud_quota_global_" ++ ToSnakeCase m ++ "_limit" : String) ≠
        (if region == "" then "estafette_gcloud_quota_global_"
          else "estafette_gcloud_quota_") ++ ToSnakeCase m ++ "_usage" := by
      rw [hif]
      exact affix_ne _ _ _ _ _ hlen hlu
    exact regLookup_updateQuotaStep_ne p region g _ _ h1 h2
  · rw [hbatch]
    have h1 : ("estafette_gcloud_quota_global_" ++ ToSnakeCase m ++ "_usage" : String) ≠
        (if region == "" then "estafette_gcloud_quota_global_"
          else "estafette_gcloud_quota_") ++ ToSnakeCase m ++ "_limit" := by
      rw [hif]
      exact affix_ne _ _ _ _ _ hlen hul
    have h2 : ("estafette_gcloud_quota_global_" ++ ToSnakeCase m ++ "_usage" : String) ≠
        (if region == "" then "estafette_gcloud_quota_global_"
          else "estafette_gcloud_quota_") ++ ToSnakeCase m ++ "_usage" := by
      rw [hif]
      exact affix_ne _ _ _ _ _ hlen huu
    exact regLookup_updateQuotaStep_ne p region g _ _ h1 h2

/-- Witness for claim C6 at metric "CPUS", project "proj-a", region
"us-central1", on the empty registry. -/
theorem global_regional_gauges_disjoint_witness :
    ("estafette_gcloud_quota_global_" ++ ToSnakeCase "CPUS" ++ "_limit" ≠
      "estafette_gcloud_quota_" ++ ToSnakeCase "CPUS" ++ "_limit") ∧
    ("estafette_gcloud_quota_global_" ++ ToSnakeCase "CPUS" ++ "_usage" ≠
      "estafette_gcloud_quota_" ++ ToSnakeCase "CPUS" ++ "_usage") ∧
    ((["project"] : List String) ≠ ["project", "region"]) ∧
    (regLookup
        (updatePrometheusTimelinesFromQuota
          [{ Metric := "CPUS", Limit := 100, Usage := 42 }] "proj-a" "" [])
        ("estafette_gcloud_quota_" ++ ToSnakeCase "CPUS" ++ "_limit") =
      regLookup [] ("estafette_gcloud_quota_" ++ ToSnakeCase "CPUS" ++ "_limit")) ∧
    (regLookup
        (updatePrometheusTimelinesFromQuota
          [{ Metric := "CPUS", Limit := 100, Usage := 42 }] "proj-a" "" [])
        ("estafette_gcloud_quota_" ++ ToSnakeCase "CPUS" ++ "_usage") =
      regLookup [] ("estafette_gcloud_quota_" ++ ToSnakeCase "CPUS" ++ "_usage")) ∧
    (regLookup
        (updatePrometheusTimelinesFromQuota
          [{ Metric := "CPUS", Limit := 100, Usage := 42 }] "proj-a" "us-central1" [])
        ("estafette_gcloud_quota_global_" ++ ToSnakeCase "CPUS" ++ "_limit") =
      regLookup [] ("estafette_gcloud_quota_global_" ++ ToSnakeCase "CPUS" ++ "_limit")) ∧
    (regLookup
        (updatePrometheusTimelinesFromQuota
          [{ Metric := "CPUS", Limit := 100, Usage := 42 }] "proj-a" "us-central1" [])
        ("estafette_gcloud_quota_global_" ++ ToSnakeCase "CPUS" ++ "_usage") =
      regLookup [] ("estafette_gcloud_quota_global_" ++ ToSnakeCase "CPUS" ++ "_usage")) :=
  global_regional_gauges_disjoint "CPUS" "proj-a" "us-central1" 100 42 [] (by decide)

/-! ## Character-level lemmas for the canonicalizer -/

/-- Helper: `Char.ofNat` round-trips on valid code points. -/
theorem charOfNat_toNat (n : Nat) (h : n < 55296) : (Char.ofNat n).toNat = n := by
  have hv : n.isValidChar := Or.inl h
  unfold Char.ofNat
  rw [dif_pos hv]
  rfl

/-- Helper: unfolded form of `goIsUpper`. -/
theorem goIsUpper_iff (c : Char) : goIsUpper c = true ↔ 65 ≤ c.toNat ∧ c.toNat ≤ 90 := by
  simp [goIsUpper]

/-- Helper: unfolded form of `goIsLower`. -/
theorem goIsLower_iff (c : Char) : goIsLower c = true ↔ 97 ≤ c.toNat ∧ c.toNat ≤ 122 := by
  simp [goIsLower]

/-- Helper: unfolded form of `goIsDigit`. -/
theorem goIsDigit_iff (c : Char) : goIsDigit c = true ↔ 48 ≤ c.toNat ∧ c.toNat ≤ 57 := by
  simp [goIsDigit]

/-- Helper: unfolded form of `goIsSpace`. -/
theorem goIsSpace_iff (c : Char) : goIsSpace c = true ↔
    c.toNat = 32 ∨ c.toNat = 9 ∨ c.toNat = 10 ∨ c.toNat = 11 ∨ c.toNat = 12 ∨ c.toNat = 13 := by
  simp [goIsSpace]
  tauto

/-- Helper: lower-casing an upper-case character shifts its code point by
32. -/
theorem goToLower_toNat_of_upper (c : Char) (h : goIsUpper c = true) :
    (goToLower c).toNat = c.toNat + 32 := by
  unfold goToLower
  rw [if_pos h]
  have h90 : c.toNat ≤ 90 := ((goIsUpper_iff c).mp h).2
  exact charOfNat_toNat _ (by omega)

/-- Helper: lower-casing a non-upper-case character is the identity. -/
theorem goToLower_id (c : Char) (h : goIsUpper c = false) : goToLower c = c := by
  unfold goToLower
  rw [if_neg (by simp [h])]

/-- Helper: lower-casing an upper-case character yields a lower-case one. -/
theorem goIsLower_goToLower (c : Char) (h : goIsUpper c = true) :
    goIsLower (goToLower c) = true := by
  rw [goIsLower_iff, goToLower_toNat_of_upper c h]
  have := (goIsUpper_iff c).mp h
  omega

/-- Helper: lower and upper ASCII ranges are disjoint. -/
theorem goIsLower_of_upper (c : Char) (h : goIsUpper c = true) : goIsLower c = false := by
  cases hx : goIsLower c with
  | false => rfl
  | true =>
    have h1 := (goIsUpper_iff c).mp h
    have h2 := (goIsLower_iff c).mp hx
    omega

/-- Helper: a lower-case character is not upper-case. -/
theorem goIsUpper_of_lower (c : Char) (h : goIsLower c = true) : goIsUpper c = false := by
  cases hx : goIsUpper c with
  | false => rfl
  | true =>
    have h1 := (goIsUpper_iff c).mp hx
    have h2 := (goIsLower_iff c).mp h
    omega

/-- Helper: lower-casing is idempotent. -/
theorem goToLower_idem (c : Char) : goToLower (goToLower c) = goToLower c := by
  cases h : goIsUpper c with
  | true =>
    exact goToLower_id _ (goIsUpper_of_lower _ (goIsLower_goToLower c h))
  | false =>
    rw [goToLower_id c h, goToLower_id c h]

/-- Helper: `charClass` is 1 exactly on lower-case characters. -/
theorem charClass_eq_one_iff (c : Char) : charClass c = 1 ↔ goIsLower c = true := by
  unfold charClass
  constructor
  · intro h
    by_cases h1 : goIsLower c = true
    · exact h1
    · exfalso
      rw [if_neg (by simp [h1])] at h
      split at h <;> try omega
      split at h <;> omega
  · intro h
    rw [if_pos h]

/-- Helper: an upper-case character has class 2. -/
theorem charClass_of_upper (c : Char) (h : goIsUpper c = true) : charClass c = 2 := by
  unfold charClass
  rw [if_neg (by simp [goIsLower_of_upper c h]), if_pos h]

/-- Helper: `charClass` after lower-casing collapses class 2 to 1 and
fixes the other classes. -/
theorem charClass_goToLower (c : Char) :
    charClass (goToLower c) = if charClass c = 2 then 1 else charClass c := by
  cases h : goIsUpper c with
  | true =>
    rw [charClass_of_upper c h, if_pos rfl]
    exact (charClass_eq_one_iff _).mpr (goIsLower_goToLower c h)
  | false =>
    rw [goToLower_id c h]
    have : charClass c ≠ 2 := by
      unfold charClass
      split
      · omega
      · rw [if_neg (by simp [h])]
        split <;> omega
    rw [if_neg this]

/-- Helper: lower-casing preserves cleanliness of a character. -/
theorem cleanChar_goToLower (c : Char) (hs : goIsSpace c = false) (hd : c ≠ '-')
    (hu : c ≠ '_') : CleanChar (goToLower c) := by
  cases h : goIsUpper c with
  | false =>
    rw [goToLower_id c h]
    exact ⟨hs, hd, hu, goToLower_id c h⟩
  | true =>
    have hrange : 97 ≤ (goToLower c).toNat ∧ (goToLower c).toNat ≤ 122 :=
      (goIsLower_iff _).mp (goIsLower_goToLower c h)
    refine ⟨?_, ?_, ?_, goToLower_idem c⟩
    · cases hx : goIsSpace (goToLower c) with
      | false => rfl
      | true =>
        have := (goIsSpace_iff _).mp hx
        omega
    · intro hx
      have : (goToLower c).toNat = 45 := by rw [hx]; rfl
      omega
    · intro hx
      have : (goToLower c).toNat = 95 := by rw [hx]; rfl
      omega

/-! ## Splitter lemmas -/

/-- Helper: splitting a separator-free list yields the list itself. -/
theorem splitWhenAux_sepFree (p : Char → Bool) (l : List Char)
    (h : ∀ c ∈ l, p c = false) : splitWhenAux p l = (l, []) := by
  induction l with
  | nil => rfl
  | cons c cs ih =>
    have hc : p c = false := h c (by simp)
    have hcs := ih (fun d hd => h d (by simp [hd]))
    simp [splitWhenAux, hcs, hc]

/-- Helper: `splitWhen` on a separator-free list is the singleton. -/
theorem splitWhen_sepFree (p : Char → Bool) (l : List Char)
    (h : ∀ c ∈ l, p c = false) : splitWhen p l = [l] := by
  simp [splitWhen, splitWhenAux_sepFree p l h]

/-- Helper: every piece of a split is separator-free. -/
theorem splitWhenAux_pieces_sepFree (p : Char → Bool) (l : List Char) :
    (∀ c ∈ (splitWhenAux p l).1, p c = false) ∧
    (∀ f ∈ (splitWhenAux p l).2, ∀ c ∈ f, p c = false) := by
  induction l with
  | nil => exact ⟨by simp [splitWhenAux], by simp [splitWhenAux]⟩
  | cons c cs ih =>
    unfold splitWhenAux
    cases hc : p c with
    | true =>
      simp only [eq_self_iff_true, if_true]
      refine ⟨by simp, ?_⟩
      intro f hf
      simp only [List.mem_cons] at hf
      rcases hf with h | h
      · subst h; exact ih.1
      · exact ih.2 f h
    | false =>
      simp only [Bool.false_eq_true, if_false]
      refine ⟨?_, ih.2⟩
      intro d hd
      simp only [List.mem_cons] at hd
      rcases hd with h | h
      · subst h; exact hc
      · exact ih.1 d h

/-- Helper: every piece of `splitWhen` is separator-free. -/
theorem splitWhen_pieces_sepFree (p : Char → Bool) (l : List Char) :
    ∀ f ∈ splitWhen p l, ∀ c ∈ f, p c = false := by
  intro f hf
  unfold splitWhen at hf
  simp only [List.mem_cons] at hf
  rcases hf with h | h
  · subst h; exact (splitWhenAux_pieces_sepFree p l).1
  · exact (splitWhenAux_pieces_sepFree p l).2 f h

/-- Helper: characters of split pieces come from the input. -/
theorem splitWhenAux_pieces_subset (p : Char → Bool) (l : List Char) :
    (∀ c ∈ (splitWhenAux p l).1, c ∈ l) ∧
    (∀ f ∈ (splitWhenAux p l).2, ∀ c ∈ f, c ∈ l) := by
  induction l with
  | nil => exact ⟨by simp [splitWhenAux], by simp [splitWhenAux]⟩
  | cons c cs ih =>
    unfold splitWhenAux
    cases hc : p c with
    | true =>
      simp only [eq_self_iff_true, if_true]
      refine ⟨by simp, ?_⟩
      intro f hf
      simp only [List.mem_cons] at hf
      rcases hf with h | h
      · subst h; exact fun d hd => by simp [ih.1 d hd]
      · exact fun d hd => by simp [ih.2 f h d hd]
    | false =>
      simp only [Bool.false_eq_true, if_false]
      constructor
      · intro d hd
        simp only [List.mem_cons] at hd
        rcases hd with h | h
        · simp [h]
        · simp [ih.1 d h]
      · exact fun f hf d hd => by simp [ih.2 f hf d hd]

/-- Helper: characters of `splitWhen` pieces come from the input. -/
theorem splitWhen_pieces_subset (p : Char → Bool) (l : List Char) :
    ∀ f ∈ splitWhen p l, ∀ c ∈ f, c ∈ l := by
  intro f hf
  unfold splitWhen at hf
  simp only [List.mem_cons] at hf
  rcases hf with h | h
  · subst h; exact (splitWhenAux_pieces_subset p l).1
  · exact (splitWhenAux_pieces_subset p l).2 f h

/-- Helper: splitting a separator-free block appended to a list only
extends the first piece. -/
theorem splitWhenAux_append_sepFree (p : Char → Bool) (f l : List Char)
    (hf : ∀ c ∈ f, p c = false) :
    splitWhenAux p (f ++ l) = (f ++ (splitWhenAux p l).1, (splitWhenAux p l).2) := by
  induction f with
  | nil => simp
  | cons c cs ih =>
    have hc : p c = false := hf c (by simp)
    have hcs := ih (fun d hd => hf d (by simp [hd]))
    simp [splitWhenAux, hcs, hc]

/-- Helper: splitting on '_' undoes `joinUnderscore` when no field
contains '_'. -/
theorem splitWhenAux_joinUnderscore (fs : List (List Char)) (f : List Char)
    (hf : ∀ c ∈ f, (c == '_') = false)
    (hfs : ∀ f2 ∈ fs, ∀ c ∈ f2, (c == '_') = false) :
    splitWhenAux (fun c => c == '_') (joinUnderscore (f :: fs)) = (f, fs) := by
  induction fs generalizing f with
  | nil => exact splitWhenAux_sepFree _ f hf
  | cons f2 fs2 ih =>
    have hjoin : joinUnderscore (f :: f2 :: fs2) = f ++ '_' :: joinUnderscore (f2 :: fs2) := rfl
    rw [hjoin, splitWhenAux_append_sepFree _ f _ hf]
    have hstep : splitWhenAux (fun c => c == '_') ('_' :: joinUnderscore (f2 :: fs2)) =
        ([], (splitWhenAux (fun c => c == '_') (joinUnderscore (f2 :: fs2))).1 ::
          (splitWhenAux (fun c => c == '_') (joinUnderscore (f2 :: fs2))).2) := by
      simp [splitWhenAux]
    rw [hstep, ih f2 (hfs f2 (by simp)) (fun f3 h3 => hfs f3 (by simp [h3]))]
    simp

/-- Helper: `splitWhen` on '_' undoes `joinUnderscore`. -/
theorem splitWhen_joinUnderscore (fs : List (List Char)) (f : List Char)
    (hf : ∀ c ∈ f, (c == '_') = false)
    (hfs : ∀ f2 ∈ fs, ∀ c ∈ f2, (c == '_') = false) :
    splitWhen (fun c => c == '_') (joinUnderscore (f :: fs)) = f :: fs := by
  unfold splitWhen
  rw [splitWhenAux_joinUnderscore fs f hf hfs]

/-- Helper: membership in a joined field list. -/
theorem mem_joinUnderscore (fs : List (List Char)) (c : Char)
    (h : c ∈ joinUnderscore fs) : c = '_' ∨ ∃ f ∈ fs, c ∈ f := by
  induction fs with
  | nil => simp [joinUnderscore] at h
  | cons f fs2 ih =>
    cases fs2 with
    | nil =>
      right
      exact ⟨f, by simp, h⟩
    | cons f2 fs3 =>
      have hjoin : joinUnderscore (f :: f2 :: fs3) = f ++ '_' :: joinUnderscore (f2 :: fs3) := rfl
      rw [hjoin] at h
      simp only [List.mem_append, List.mem_cons] at h
      rcases h with h | h | h
      · exact Or.inr ⟨f, by simp, h⟩
      · exact Or.inl h
      · rcases ih h with h2 | ⟨f3, h3, h4⟩
        · exact Or.inl h2
        · exact Or.inr ⟨f3, List.mem_cons_of_mem f h3, h4⟩

/-! ## camelcase.Split lemmas -/

/-- Helper: every class run is non-empty and class-uniform. -/
theorem classRuns_uniform (l : List Char) :
    ∀ r ∈ classRuns l, r ≠ [] ∧ ∃ k, ∀ c ∈ r, charClass c = k := by
  induction l with
  | nil => intro r hr; simp [classRuns] at hr
  | cons c cs ih =>
    intro r hr
    unfold classRuns at hr
    cases hcs : classRuns cs with
    | nil =>
      rw [hcs] at hr
      simp only [List.mem_singleton] at hr
      subst hr
      exact ⟨by simp, charClass c, by simp⟩
    | cons r0 rs =>
      rw [hcs] at hr
      cases r0 with
      | nil =>
        exfalso
        exact (ih [] (by rw [hcs]; simp)).1 rfl
      | cons d ds =>
        dsimp only at hr
        by_cases hcd : charClass c = charClass d
        · rw [if_pos hcd] at hr
          simp only [List.mem_cons] at hr
          rcases hr with h | h
          · subst h
            obtain ⟨-, k, hk⟩ := ih (d :: ds) (by rw [hcs]; simp)
            refine ⟨by simp, k, ?_⟩
            intro x hx
            simp only [List.mem_cons] at hx
            rcases hx with h | h | h
            · subst h; rw [hcd]; exact hk d (by simp)
            · subst h; exact hk x (by simp)
            · exact hk x (by simp [h])
          · exact ih r (by rw [hcs]; simp [h])
        · rw [if_neg hcd] at hr
          simp only [List.mem_cons] at hr
          rcases hr with h | h
          · subst h
            exact ⟨by simp, charClass c, by simp⟩
          · exact ih r (by rw [hcs]; simp only [List.mem_cons]; exact h)

/-- Helper: characters of class runs come from the input. -/
theorem classRuns_subset (l : List Char) :
    ∀ r ∈ classRuns l, ∀ c ∈ r, c ∈ l := by
  induction l with
  | nil => intro r hr; simp [classRuns] at hr
  | cons c cs ih =>
    intro r hr x hx
    unfold classRuns at hr
    cases hcs : classRuns cs with
    | nil =>
      rw [hcs] at hr
      simp only [List.mem_singleton] at hr
      subst hr
      simp only [List.mem_singleton] at hx
      simp [hx]
    | cons r0 rs =>
      rw [hcs] at hr
      cases r0 with
      | nil =>
        dsimp only at hr
        simp only [List.mem_cons] at hr
        rcases hr with h | h | h
        · subst h; simp only [List.mem_singleton] at hx; simp [hx]
        · subst h; simp at hx
        · exact List.mem_cons_of_mem c (ih r (by rw [hcs]; simp [h]) x hx)
      | cons d ds =>
        dsimp only at hr
        by_cases hcd : charClass c = charClass d
        · rw [if_pos hcd] at hr
          simp only [List.mem_cons] at hr
          rcases hr with h | h
          · subst h
            simp only [List.mem_cons] at hx
            rcases hx with h | h
            · simp [h]
            · exact List.mem_cons_of_mem c (ih (d :: ds) (by rw [hcs]; simp) x (by simp [h]))
          · exact List.mem_cons_of_mem c (ih r (by rw [hcs]; simp [h]) x hx)
        · rw [if_neg hcd] at hr
          simp only [List.mem_cons] at hr
          rcases hr with h | h
          · subst h
            simp only [List.mem_singleton] at hx
            simp [hx]
          · exact List.mem_cons_of_mem c
              (ih r (by rw [hcs]; simp only [List.mem_cons]; exact h) x hx)

/-- Helper: a non-empty class-uniform list is a single run. -/
theorem classRuns_of_uniform (l : List Char) (hne : l ≠ []) (k : Nat)
    (h : ∀ c ∈ l, charClass c = k) : classRuns l = [l] := by
  induction l with
  | nil => exact absurd rfl hne
  | cons c cs ih =>
    cases cs with
    | nil => rfl
    | cons d ds =>
      have hcs : classRuns (d :: ds) = [d :: ds] :=
        ih (by simp) (fun x hx => h x (by simp [List.mem_cons] at hx ⊢; tauto))
      unfold classRuns
      rw [hcs]
      dsimp only
      have hcd : charClass c = charClass d := by
        rw [h c (by simp), h d (by simp)]
      rw [if_pos hcd]

/-- Helper: a run passing the `headIsUpper` test is non-empty. -/
theorem ne_nil_of_headIsUpper (r : List Char) (h : headIsUpper r = true) : r ≠ [] := by
  intro he
  subst he
  simp [headIsUpper] at h

/-- Helper: `getLastD` of a non-empty list is a member. -/
theorem getLastD_mem (r : List Char) (d : Char) (h : r ≠ []) : r.getLastD d ∈ r := by
  cases r with
  | nil => exact absurd rfl h
  | cons a as =>
    rw [List.getLastD_eq_getLast?, List.getLast?_eq_getLast _ h]
    exact List.getLast_mem h

/-- Helper: `GoodRun` is closed under taking sublists of members. -/
theorem goodRun_of_subset (r s : List Char) (hsub : ∀ c ∈ s, c ∈ r) (h : GoodRun r) :
    GoodRun s := by
  rcases h with h | ⟨k, hk⟩
  · exact Or.inl fun c hc => h c (hsub c hc)
  · exact Or.inr ⟨k, fun c hc => hk c (hsub c hc)⟩

/-- Helper: the head of a run whose head is upper, in a good run, makes
every member of a uniform run upper; in particular the last member is a
letter. -/
theorem letter_of_goodRun_headUpper (r : List Char) (h : GoodRun r)
    (hu : headIsUpper r = true) (c : Char) (hc : c ∈ r) :
    goIsUpper c = true ∨ goIsLower c = true := by
  rcases h with h | ⟨k, hk⟩
  · exact h c hc
  · cases r with
    | nil => simp at hc
    | cons a as =>
      have ha : goIsUpper a = true := by simpa [headIsUpper] using hu
      have hka : charClass a = k := hk a (by simp)
      have hkc : charClass c = k := hk c hc
      left
      have h2 : charClass c = 2 := by rw [hkc, ← hka, charClass_of_upper a ha]
      cases hx : goIsUpper c with
      | true => rfl
      | false =>
        exfalso
        unfold charClass at h2
        split at h2
        · omega
        · rw [if_neg (by simp [hx])] at h2
          split at h2 <;> omega

/-- Helper: every member of a good run whose head is lower is a letter. -/
theorem letter_of_goodRun_headLower (r : List Char) (h : GoodRun r)
    (hl : headIsLower r = true) (c : Char) (hc : c ∈ r) :
    goIsUpper c = true ∨ goIsLower c = true := by
  rcases h with h | ⟨k, hk⟩
  · exact h c hc
  · cases r with
    | nil => simp at hc
    | cons a as =>
      have ha : goIsLower a = true := by simpa [headIsLower] using hl
      have hka : charClass a = k := hk a (by simp)
      have hkc : charClass c = k := hk c hc
      right
      rw [← charClass_eq_one_iff]
      rw [hkc, ← hka, (charClass_eq_one_iff a).mpr ha]

/-- Helper: the camelcase fix loop preserves `GoodRun` for every emitted
run. -/
theorem fixAux_good (r1 : List Char) (rs : List (List Char)) (h1 : GoodRun r1)
    (hrs : ∀ r ∈ rs, GoodRun r) : ∀ r ∈ fixAux r1 rs, GoodRun r := by
  induction rs generalizing r1 with
  | nil =>
    intro r hr
    simp only [fixAux, List.mem_singleton] at hr
    subst hr
    exact h1
  | cons r2 rest ih =>
    intro r hr
    unfold fixAux at hr
    by_cases hcond : (headIsUpper r1 && headIsLower r2) = true
    · rw [if_pos hcond] at hr
      obtain ⟨hcu, hcl⟩ := Bool.and_eq_true_iff.mp hcond
      simp only [List.mem_cons] at hr
      rcases hr with h | h
      · subst h
        exact goodRun_of_subset r1 r1.dropLast (fun c hc => List.dropLast_subset r1 hc) h1
      · have hx : r1.getLastD 'A' ∈ r1 := getLastD_mem r1 'A' (ne_nil_of_headIsUpper r1 hcu)
        have hgood2 : GoodRun (r1.getLastD 'A' :: r2) := by
          left
          intro c hc
          simp only [List.mem_cons] at hc
          rcases hc with h2 | h2
          · subst h2
            exact letter_of_goodRun_headUpper r1 h1 hcu _ hx
          · exact letter_of_goodRun_headLower r2 (hrs r2 (by simp)) hcl c h2
        exact ih _ hgood2 (fun r3 h3 => hrs r3 (by simp [h3])) r h
    · rw [if_neg hcond] at hr
      simp only [List.mem_cons] at hr
      rcases hr with h | h
      · subst h; exact h1
      · exact ih r2 (hrs r2 (by simp)) (fun r3 h3 => hrs r3 (by simp [h3])) r h

/-- Helper: characters emitted by the fix loop come from its input runs. -/
theorem fixAux_subset (r1 : List Char) (rs : List (List Char)) :
    ∀ r ∈ fixAux r1 rs, ∀ c ∈ r, c ∈ r1 ∨ ∃ r2 ∈ rs, c ∈ r2 := by
  induction rs generalizing r1 with
  | nil =>
    intro r hr c hc
    simp only [fixAux, List.mem_singleton] at hr
    subst hr
    exact Or.inl hc
  | cons r2 rest ih =>
    intro r hr c hc
    unfold fixAux at hr
    by_cases hcond : (headIsUpper r1 && headIsLower r2) = true
    · rw [if_pos hcond] at hr
      obtain ⟨hcu, -⟩ := Bool.and_eq_true_iff.mp hcond
      simp only [List.mem_cons] at hr
      rcases hr with h | h
      · subst h
        exact Or.inl (List.dropLast_subset r1 hc)
      · rcases ih _ r h c hc with h2 | ⟨r3, h3, h4⟩
        · simp only [List.mem_cons] at h2
          rcases h2 with h5 | h5
          · subst h5
            exact Or.inl (getLastD_mem r1 'A' (ne_nil_of_headIsUpper r1 hcu))
          · exact Or.inr ⟨r2, by simp, h5⟩
        · exact Or.inr ⟨r3, by simp [h3], h4⟩
    · rw [if_neg hcond] at hr
      simp only [List.mem_cons] at hr
      rcases hr with h | h
      · subst h; exact Or.inl hc
      · rcases ih r2 r h c hc with h2 | ⟨r3, h3, h4⟩
        · exact Or.inr ⟨r2, by simp, h2⟩
        · exact Or.inr ⟨r3, by simp [h3], h4⟩

/-- Helper: `camelSplit` of a non-empty class-uniform list is the
singleton. -/
theorem camelSplit_of_uniform (l : List Char) (hne : l ≠ []) (k : Nat)
    (h : ∀ c ∈ l, charClass c = k) : camelSplit l = [l] := by
  unfold camelSplit
  rw [classRuns_of_uniform l hne k h]
  show ([l] : List (List Char)).filter (fun r => !r.isEmpty) = [l]
  have hie : l.isEmpty = false := by simpa [List.isEmpty_iff] using hne
  simp [List.filter, hie]

/-- Helper: every `camelSplit` entry is non-empty, a good run, and drawn
from the input characters. -/
theorem camelSplit_entries (l : List Char) :
    ∀ e ∈ camelSplit l, e ≠ [] ∧ GoodRun e ∧ ∀ c ∈ e, c ∈ l := by
  intro e he
  unfold camelSplit at he
  rw [List.mem_filter] at he
  obtain ⟨hmem, hne⟩ := he
  have hene : e ≠ [] := by simpa using hne
  unfold fixRuns at hmem
  cases hcr : classRuns l with
  | nil =>
    rw [hcr] at hmem
    simp at hmem
  | cons r0 rs =>
    rw [hcr] at hmem
    have hgood : ∀ r ∈ classRuns l, GoodRun r := by
      intro r hr
      obtain ⟨-, k, hk⟩ := classRuns_uniform l r hr
      exact Or.inr ⟨k, hk⟩
    refine ⟨hene, ?_, ?_⟩
    · exact fixAux_good r0 rs (hgood r0 (by rw [hcr]; simp))
        (fun r3 h3 => hgood r3 (by rw [hcr]; simp [h3])) e hmem
    · intro c hc
      rcases fixAux_subset r0 rs e hmem c hc with h2 | ⟨r3, h3, h4⟩
      · exact classRuns_subset l r0 (by rw [hcr]; simp) c h2
      · exact classRuns_subset l r3 (by rw [hcr]; simp [h3]) c h4

/-! ## ToSnakeCase idempotence -/

/-- Helper: every field produced by `splitToLowerFields` is non-empty,
consists of clean characters, and is class-uniform. -/
theorem splitToLowerFields_good (l : List Char) :
    ∀ f ∈ splitToLowerFields l, GoodField f := by
  intro f hf
  unfold splitToLowerFields at hf
  rw [List.mem_map] at hf
  obtain ⟨f0, hf0, rfl⟩ := hf
  rw [List.mem_flatMap] at hf0
  obtain ⟨sf, hsf, hf0⟩ := hf0
  rw [List.mem_flatMap] at hf0
  obtain ⟨sf2, hsf2, hf0⟩ := hf0
  rw [List.mem_flatMap] at hf0
  obtain ⟨sf3, hsf3, hf0⟩ := hf0
  rw [List.mem_filter] at hsf
  obtain ⟨hsf, -⟩ := hsf
  obtain ⟨hne0, hgood0, hsub0⟩ := camelSplit_entries sf3 f0 hf0
  have hcsub2 : ∀ c ∈ f0, c ∈ sf2 := fun c hc =>
    splitWhen_pieces_subset (fun c => c == '_') sf2 sf3 hsf3 c (hsub0 c hc)
  have hcsub1 : ∀ c ∈ f0, c ∈ sf := fun c hc =>
    splitWhen_pieces_subset (fun c => c == '-') sf sf2 hsf2 c (hcsub2 c hc)
  have hsp : ∀ c ∈ f0, goIsSpace c = false := fun c hc =>
    splitWhen_pieces_sepFree goIsSpace l sf hsf c (hcsub1 c hc)
  have hdash : ∀ c ∈ f0, (c == '-') = false := fun c hc =>
    splitWhen_pieces_sepFree (fun c => c == '-') sf sf2 hsf2 c (hcsub2 c hc)
  have hus : ∀ c ∈ f0, (c == '_') = false := fun c hc =>
    splitWhen_pieces_sepFree (fun c => c == '_') sf2 sf3 hsf3 c (hsub0 c hc)
  refine ⟨by simpa using hne0, ?_, ?_⟩
  · intro c hc
    rw [List.mem_map] at hc
    obtain ⟨c0, hc0, rfl⟩ := hc
    exact cleanChar_goToLower c0 (hsp c0 hc0)
      (beq_eq_false_iff_ne.mp (hdash c0 hc0)) (beq_eq_false_iff_ne.mp (hus c0 hc0))
  · rcases hgood0 with hlet | ⟨k0, hk0⟩
    · refine ⟨1, ?_⟩
      intro c hc
      rw [List.mem_map] at hc
      obtain ⟨c0, hc0, rfl⟩ := hc
      rw [charClass_eq_one_iff]
      rcases hlet c0 hc0 with h | h
      · exact goIsLower_goToLower c0 h
      · rw [goToLower_id c0 (goIsUpper_of_lower c0 h)]
        exact h
    · refine ⟨if k0 = 2 then 1 else k0, ?_⟩
      intro c hc
      rw [List.mem_map] at hc
      obtain ⟨c0, hc0, rfl⟩ := hc
      rw [charClass_goToLower, hk0 c0 hc0]

/-- Helper: joining a list of fields whose head is non-empty yields a
non-empty list. -/
theorem joinUnderscore_ne_nil (f : List Char) (fs : List (List Char)) (h : f ≠ []) :
    joinUnderscore (f :: fs) ≠ [] := by
  cases fs with
  | nil => exact h
  | cons f2 fs2 =>
    have : joinUnderscore (f :: f2 :: fs2) = f ++ '_' :: joinUnderscore (f2 :: fs2) := rfl
    rw [this]
    simp

/-- Helper: `flatMap camelSplit` is the identity on fields that
`camelSplit` keeps whole. -/
theorem flatMap_camelSplit_id (fs : List (List Char))
    (h : ∀ f ∈ fs, camelSplit f = [f]) : fs.flatMap camelSplit = fs := by
  induction fs with
  | nil => rfl
  | cons f fs2 ih =>
    rw [List.flatMap_cons, h f (by simp), ih (fun f2 h2 => h f2 (by simp [h2]))]
    rfl

/-- Helper: lower-casing is the identity on a list of fixed characters. -/
theorem map_goToLower_id (f : List Char) (h : ∀ c ∈ f, goToLower c = c) :
    f.map goToLower = f := by
  induction f with
  | nil => rfl
  | cons c cs ih =>
    rw [List.map_cons, h c (by simp), ih (fun d hd => h d (by simp [hd]))]

/-- Helper: mapping `goToLower` over fields of fixed characters is the
identity. -/
theorem map_map_goToLower_id (fs : List (List Char))
    (h : ∀ f ∈ fs, f.map goToLower = f) : fs.map (List.map goToLower) = fs := by
  induction fs with
  | nil => rfl
  | cons g gs ih =>
    rw [List.map_cons, h g (by simp), ih (fun f2 h2 => h f2 (by simp [h2]))]

/-- Helper: `splitToLowerFields` reconstructs exactly the fields it is
given, when they satisfy the field invariant — the heart of idempotence. -/
theorem splitToLowerFields_joinUnderscore (f0 : List Char) (fs : List (List Char))
    (hall : ∀ f ∈ f0 :: fs, GoodField f) :
    splitToLowerFields (joinUnderscore (f0 :: fs)) = f0 :: fs := by
  have hclean : ∀ c ∈ joinUnderscore (f0 :: fs), CleanChar c ∨ c = '_' := by
    intro c hc
    rcases mem_joinUnderscore _ c hc with h | ⟨f, hfm, hcf⟩
    · right; exact h
    · left; exact (hall f hfm).2.1 c hcf
  have hspace : ∀ c ∈ joinUnderscore (f0 :: fs), goIsSpace c = false := by
    intro c hc
    rcases hclean c hc with h | h
    · exact h.1
    · subst h; rfl
  have hdash : ∀ c ∈ joinUnderscore (f0 :: fs), (c == '-') = false := by
    intro c hc
    rcases hclean c hc with h | h
    · exact beq_eq_false_iff_ne.mpr h.2.1
    · subst h; rfl
  have hne_t : joinUnderscore (f0 :: fs) ≠ [] :=
    joinUnderscore_ne_nil f0 fs (hall f0 (by simp)).1
  have husf : ∀ f ∈ f0 :: fs, ∀ c ∈ f, (c == '_') = false := fun f hf c hc =>
    beq_eq_false_iff_ne.mpr ((hall f hf).2.1 c hc).2.2.1
  unfold splitToLowerFields
  rw [splitWhen_sepFree goIsSpace _ hspace]
  have hie : (joinUnderscore (f0 :: fs)).isEmpty = false := by
    simpa [List.isEmpty_iff] using hne_t
  have hfil : ([joinUnderscore (f0 :: fs)] : List (List Char)).filter
      (fun f => !f.isEmpty) = [joinUnderscore (f0 :: fs)] := by
    simp [List.filter, hie]
  rw [hfil]
  simp only [List.flatMap_cons, List.flatMap_nil, List.append_nil]
  rw [splitWhen_sepFree (fun c => c == '-') _ hdash]
  simp only [List.flatMap_cons, List.flatMap_nil, List.append_nil]
  rw [splitWhen_joinUnderscore fs f0 (husf f0 (by simp))
    (fun f2 h2 => husf f2 (by simp [h2]))]
  rw [flatMap_camelSplit_id (f0 :: fs) (fun f hf => by
    obtain ⟨k, hk⟩ := (hall f hf).2.2
    exact camelSplit_of_uniform f (hall f hf).1 k hk)]
  exact map_map_goToLower_id (f0 :: fs) (fun f hf =>
    map_goToLower_id f (fun c hc => ((hall f hf).2.1 c hc).2.2.2))

/-- Helper: `toSnakeCaseL` is idempotent. -/
theorem toSnakeCaseL_idem (l : List Char) :
    toSnakeCaseL (toSnakeCaseL l) = toSnakeCaseL l := by
  cases l with
  | nil => rfl
  | cons c cs =>
    have h1 : toSnakeCaseL (c :: cs) = joinUnderscore (splitToLowerFields (c :: cs)) := rfl
    rw [h1]
    cases hfs : splitToLowerFields (c :: cs) with
    | nil => rfl
    | cons f0 fs =>
      have hall : ∀ f ∈ f0 :: fs, GoodField f := by
        intro f hf
        exact splitToLowerFields_good (c :: cs) f (by rw [hfs]; exact hf)
      have hne_t : joinUnderscore (f0 :: fs) ≠ [] :=
        joinUnderscore_ne_nil f0 fs (hall f0 (by simp)).1
      cases hjt : joinUnderscore (f0 :: fs) with
      | nil => exact absurd hjt hne_t
      | cons d ds =>
        have h2 : toSnakeCaseL (d :: ds) = joinUnderscore (splitToLowerFields (d :: ds)) := rfl
        rw [h2, ← hjt, splitToLowerFields_joinUnderscore f0 fs hall]

/-- Claim C7: the canonicalization `casee.ToSnakeCase` is deterministic —
it is a pure function of the raw metric string, so equal inputs give
equal keys — and idempotent: applying it to an already-canonicalized name
returns the name unchanged. -/
theorem ToSnakeCase_deterministic_idempotent (s t : String) (h : s = t) :
    ToSnakeCase s = ToSnakeCase t ∧ ToSnakeCase (ToSnakeCase s) = ToSnakeCase s := by
  subst h
  refine ⟨rfl, ?_⟩
  unfold ToSnakeCase
  have hdata : (String.mk (toSnakeCaseL s.data)).data = toSnakeCaseL s.data := rfl
  rw [hdata, toSnakeCaseL_idem]

/-- Witness for claim C7 at the metric name "CPUS". -/
theorem ToSnakeCase_deterministic_idempotent_witness :
    ToSnakeCase "CPUS" = ToSnakeCase "CPUS" ∧
    ToSnakeCase (ToSnakeCase "CPUS") = ToSnakeCase "CPUS" :=
  ToSnakeCase_deterministic_idempotent "CPUS" "CPUS" rfl

end Exporter
